import Mathlib

/-!
Shallow embedding of the AESD char driver's circular buffer and the
driver-level operations built on it, together with proofs checking the
specification's claims against the code.

Sources embedded:
* `src/aesd-char-driver/aesd-circular-buffer.c` —
  `end_entry`, `aesd_circular_buffer_init`, `aesd_circular_buffer_add_entry`,
  `aesd_circular_buffer_find_entry_offset_for_fpos`.
* `src/aesd-char-driver/main.c` — `aesd_read`, `aesd_write`,
  `aesd_ioctl` (case `AESDCHAR_IOCSEEKTO`).

Bytes are modelled as `Nat` (the newline byte is `10`); a C pointer that can
be `NULL` is an `Option`; `copy_from_user` / `copy_to_user` and allocation
are modelled as succeeding (no bytes missed), which is the success path the
claims are about.
-/

namespace Aesd

/-- Modelled from the spec: `AESDCHAR_MAX_WRITE_OPERATIONS_SUPPORTED`, the
ring capacity, is defined in the header `aesd-circular-buffer.h` /
`aesd_ioctl.h` which is not among the sources; the spec fixes N = 10
("Fixed-capacity ring of up to N complete records", N = 10). -/
def AESDCHAR_MAX_WRITE_OPERATIONS_SUPPORTED : Nat := 10

/-- The C `struct aesd_buffer_entry`: a `buffptr` (NULL modelled as `none`) and a
`size` field.  The `size` field is stored separately from the data, as in C. -/
structure aesd_buffer_entry where
  buffptr : Option (List Nat)
  size : Nat
  deriving DecidableEq, Repr

/-- The C `struct aesd_circular_buffer`: an array of
`AESDCHAR_MAX_WRITE_OPERATIONS_SUPPORTED` (= 10) entries, input offset,
output offset and a full flag.  `in_offs` / `out_offs` are `uint8_t` in C;
they are modelled as `Nat` (the code keeps them in `[0, 10)`, an invariant
proved below rather than baked into the type). -/
structure aesd_circular_buffer where
  entry : Fin AESDCHAR_MAX_WRITE_OPERATIONS_SUPPORTED → aesd_buffer_entry
  in_offs : Nat
  out_offs : Nat
  full : Bool
  deriving DecidableEq

/-- Read `buffer->entry[i]`; `none` models an access outside the array
(which in C would be undefined behaviour). -/
def getEntry (b : aesd_circular_buffer) (i : Nat) : Option aesd_buffer_entry :=
  if h : i < AESDCHAR_MAX_WRITE_OPERATIONS_SUPPORTED then some (b.entry ⟨i, h⟩) else none

/-- Write `buffer->entry[i] = e`; out-of-range writes (never performed by
the code on well-formed states) leave the buffer unchanged. -/
def setEntry (b : aesd_circular_buffer) (i : Nat) (e : aesd_buffer_entry) :
    aesd_circular_buffer :=
  if h : i < AESDCHAR_MAX_WRITE_OPERATIONS_SUPPORTED then
    { b with entry := Function.update b.entry ⟨i, h⟩ e }
  else b

/-- The helper `end_entry` (aesd-circular-buffer.c:24): true iff `offs_idx` is the last
index of the entry array (`buffer_size - 1` = 9). -/
def end_entry (offs_idx : Nat) : Bool :=
  offs_idx = AESDCHAR_MAX_WRITE_OPERATIONS_SUPPORTED - 1

/-- The index an offset advances to after the wrap check of
`aesd-circular-buffer.c` (lines 74-79 and 128-132). -/
def nextIdx (i : Nat) : Nat :=
  if end_entry i then 0 else i + 1

/-- An entry is present when its buffer pointer is non-NULL and its size is
non-zero — the test used at aesd-circular-buffer.c:68,106 and main.c:314,325. -/
def entryPresent (e : aesd_buffer_entry) : Bool :=
  e.buffptr.isSome && e.size != 0

/-- The function `aesd_circular_buffer_init` (aesd-circular-buffer.c:154): `memset` to 0
zeroes every entry (`buffptr = NULL`, `size = 0`), then clears the flag and
both offsets. -/
def aesd_circular_buffer_init : aesd_circular_buffer where
  entry := fun _ => { buffptr := none, size := 0 }
  in_offs := 0
  out_offs := 0
  full := false

/-- The function `aesd_circular_buffer_add_entry` (aesd-circular-buffer.c:122): write the
new entry at `in_offs`, advance `in_offs` with wraparound, then update
`out_offs` / `full` exactly as the C code does. -/
def aesd_circular_buffer_add_entry (b : aesd_circular_buffer)
    (add_entry : aesd_buffer_entry) : aesd_circular_buffer :=
  if b.full then
    -- if the buffer was already full, out_offs moves with in_offs
    { setEntry b b.in_offs add_entry with
      in_offs := nextIdx b.in_offs, out_offs := nextIdx b.in_offs }
  else if nextIdx b.in_offs = b.out_offs then
    -- buffer became full for the first time
    { setEntry b b.in_offs add_entry with
      in_offs := nextIdx b.in_offs, full := true }
  else
    { setEntry b b.in_offs add_entry with
      in_offs := nextIdx b.in_offs, full := false }

/-- The body of the `while (cur_offset < char_offset)` loop of
`aesd_circular_buffer_find_entry_offset_for_fpos`
(aesd-circular-buffer.c:66-101), as a recursion on the remaining
`char_offset - cur_offset` (each loop iteration increments `cur_offset` by
exactly one).  Arguments: remaining byte count, `entry_idx`,
`cur_entry_offset`.  The `getEntry` mismatch arm models the C function's
null-entry guards (lines 61-63, 84-86), which never fire for an in-range
index.  At remaining = 0 the code performs the final check of lines 104-110. -/
def findWalk (b : aesd_circular_buffer) :
    Nat → Nat → Nat → Option (Nat × Nat)
  | 0, entry_idx, cur_entry_offset =>
    match getEntry b entry_idx with
    | none => none
    | some e =>
      if entryPresent e then some (entry_idx, cur_entry_offset) else none
  | remaining + 1, entry_idx, cur_entry_offset =>
    match getEntry b entry_idx with
    | none => none
    | some e =>
      if entryPresent e then
        if cur_entry_offset = e.size - 1 then
          -- end of the current entry: advance (with wraparound), then the
          -- "back to the beginning" check, then reset cur_entry_offset
          if nextIdx entry_idx = b.out_offs then none
          else findWalk b remaining (nextIdx entry_idx) 0
        else findWalk b remaining entry_idx (cur_entry_offset + 1)
      else none

/-- The function `aesd_circular_buffer_find_entry_offset_for_fpos`
(aesd-circular-buffer.c:44): returns the entry index holding byte
`char_offset` of the concatenation together with the value stored through
`entry_offset_byte_rtn`, or `none` for a NULL return. -/
def aesd_circular_buffer_find_entry_offset_for_fpos
    (b : aesd_circular_buffer) (char_offset : Nat) : Option (Nat × Nat) :=
  findWalk b char_offset b.out_offs 0

/-- Access `buffer->entry[i]` with the all-zero entry as default for an out-of-range
index (used only at indices that well-formedness keeps in range). -/
def entryD (b : aesd_circular_buffer) (i : Nat) : aesd_buffer_entry :=
  (getEntry b i).getD { buffptr := none, size := 0 }

/-- Slot indices of the logically present records, in logical order: if the
ring is full, slots `out_offs, out_offs+1, …` wrapping around; otherwise
slots `[0, in_offs)`. -/
def logicalIdxs (b : aesd_circular_buffer) : List Nat :=
  if b.full then
    (List.range AESDCHAR_MAX_WRITE_OPERATIONS_SUPPORTED).map
      (fun k => (b.out_offs + k) % AESDCHAR_MAX_WRITE_OPERATIONS_SUPPORTED)
  else List.range b.in_offs

/-- The logically present records, in logical order. -/
def presentRecords (b : aesd_circular_buffer) : List aesd_buffer_entry :=
  (logicalIdxs b).map (entryD b)

/-- Pairs `(slot index, record size)` of each present record, in logical order. -/
def logicalPairs (b : aesd_circular_buffer) : List (Nat × Nat) :=
  (logicalIdxs b).map (fun i => (i, (entryD b i).size))

/-- Sum of the sizes of the present records — the spec's `total_bytes`. -/
def totalBytes (b : aesd_circular_buffer) : Nat :=
  ((logicalIdxs b).map (fun i => (entryD b i).size)).sum

/-- Modelled from the spec's words, for comparison with the code's resolver:
"maps an absolute offset O to the pair (record, byte_within_record) by
walking present records in order until the cumulative size first exceeds O"
— over the `(slot, size)` pairs of the present records in logical order.
The returned byte offset is O minus the sizes of the preceding records. -/
def spec_lookup : List (Nat × Nat) → Nat → Option (Nat × Nat)
  | [], _ => none
  | (i, s) :: rest, o => if o < s then some (i, o) else spec_lookup rest (o - s)

/-- Structural well-formedness of a ring state (the invariant of spec §3 and
claim C9): offsets in range; when not full, `out_offs = 0` and exactly the
slots `[0, in_offs)` are present; when full, `out_offs = in_offs` and every
slot is present. -/
def wf (b : aesd_circular_buffer) : Prop :=
  b.in_offs < AESDCHAR_MAX_WRITE_OPERATIONS_SUPPORTED ∧
  b.out_offs < AESDCHAR_MAX_WRITE_OPERATIONS_SUPPORTED ∧
  (b.full = true →
    b.out_offs = b.in_offs ∧ ∀ i, entryPresent (b.entry i) = true) ∧
  (b.full = false →
    b.out_offs = 0 ∧ ∀ i : Fin AESDCHAR_MAX_WRITE_OPERATIONS_SUPPORTED,
      (entryPresent (b.entry i) = true ↔ i.val < b.in_offs))

instance (b : aesd_circular_buffer) : Decidable (wf b) := by
  unfold wf; infer_instance

lemma maxWrite_eq : AESDCHAR_MAX_WRITE_OPERATIONS_SUPPORTED = 10 := rfl

lemma getEntry_lt (b : aesd_circular_buffer) {i : Nat}
    (h : i < AESDCHAR_MAX_WRITE_OPERATIONS_SUPPORTED) :
    getEntry b i = some (b.entry ⟨i, h⟩) := by
  simp [getEntry, h]

lemma entryD_lt (b : aesd_circular_buffer) {i : Nat}
    (h : i < AESDCHAR_MAX_WRITE_OPERATIONS_SUPPORTED) :
    entryD b i = b.entry ⟨i, h⟩ := by
  simp [entryD, getEntry_lt b h]

lemma size_pos_of_present {e : aesd_buffer_entry} (hp : entryPresent e = true) :
    0 < e.size := by
  simp only [entryPresent, Bool.and_eq_true, bne_iff_ne, ne_eq] at hp
  omega

/-- Walking `j` bytes inside one present entry just advances
`cur_entry_offset` by `j` as long as the last byte is not crossed. -/
lemma findWalk_skip (b : aesd_circular_buffer) {idx : Nat} {e : aesd_buffer_entry}
    (he : getEntry b idx = some e) (hp : entryPresent e = true) :
    ∀ j r ceo, ceo + j + 1 ≤ e.size →
      findWalk b (j + r) idx ceo = findWalk b r idx (ceo + j)
  | 0, r, ceo, _ => by simp
  | j + 1, r, ceo, hle => by
    have hne : ceo ≠ e.size - 1 := by omega
    have h1 : j + 1 + r = (j + r) + 1 := by omega
    rw [h1]
    simp only [findWalk, he, hp, if_true, hne, if_false]
    rw [findWalk_skip b he hp j r (ceo + 1) (by omega)]
    have : ceo + 1 + j = ceo + (j + 1) := by omega
    rw [this]

/-- A walk that ends strictly inside a present entry finds that entry. -/
lemma findWalk_found (b : aesd_circular_buffer) {idx : Nat} {e : aesd_buffer_entry}
    (he : getEntry b idx = some e) (hp : entryPresent e = true)
    {O : Nat} (hO : O < e.size) :
    findWalk b O idx 0 = some (idx, O) := by
  have h := findWalk_skip b he hp O 0 0 (by omega)
  simpa [findWalk, he, hp] using h

/-- A walk that must cross a whole present entry steps to the next slot
(after the wraparound and end-of-ring checks) with the entry's size consumed. -/
lemma findWalk_consume (b : aesd_circular_buffer) {idx : Nat} {e : aesd_buffer_entry}
    (he : getEntry b idx = some e) (hp : entryPresent e = true)
    {O : Nat} (hO : e.size ≤ O) :
    findWalk b O idx 0 =
      if nextIdx idx = b.out_offs then none
      else findWalk b (O - e.size) (nextIdx idx) 0 := by
  have hs : 0 < e.size := size_pos_of_present hp
  have h := findWalk_skip b he hp (e.size - 1) (O - e.size + 1) 0 (by omega)
  have hO' : (e.size - 1) + (O - e.size + 1) = O := by omega
  rw [hO'] at h
  rw [h]
  simp only [Nat.zero_add]
  show findWalk b ((O - e.size) + 1) idx (e.size - 1) = _
  simp only [findWalk, he, hp, if_true, if_pos rfl]

/-- Starting a walk at a non-present entry returns NULL. -/
lemma findWalk_absent (b : aesd_circular_buffer) {idx : Nat} {e : aesd_buffer_entry}
    (he : getEntry b idx = some e) (hp : entryPresent e = false) (O : Nat) :
    findWalk b O idx 0 = none := by
  cases O with
  | zero => simp [findWalk, he, hp]
  | succ r => simp [findWalk, he, hp]

/-- On a non-full well-formed ring, the walk from slot `j` agrees with the
spec's resolver over the slots `[j, in_offs)`. -/
lemma findWalk_nonfull (b : aesd_circular_buffer) (hwf : wf b)
    (hfull : b.full = false) :
    ∀ d j, j + d = b.in_offs → ∀ O,
      findWalk b O j 0 =
        spec_lookup ((List.range' j d).map (fun i => (i, (entryD b i).size))) O
  | 0, j, hj, O => by
    have hin : b.in_offs < 10 := hwf.1
    have hj10 : j < 10 := by omega
    have he := getEntry_lt b hj10
    have habs : entryPresent (b.entry ⟨j, hj10⟩) = false := by
      have h := (hwf.2.2.2 hfull).2 ⟨j, hj10⟩
      exact Bool.eq_false_iff.mpr
        (fun h0 => (show ¬ (j < b.in_offs) by omega) (h.mp h0))
    rw [findWalk_absent b he habs]
    simp [spec_lookup]
  | d + 1, j, hj, O => by
    have hin : b.in_offs < 10 := hwf.1
    have hj10 : j < 10 := by omega
    have he := getEntry_lt b hj10
    have hpres : entryPresent (b.entry ⟨j, hj10⟩) = true := by
      have h := (hwf.2.2.2 hfull).2 ⟨j, hj10⟩
      exact h.mpr (show j < b.in_offs by omega)
    have hD : entryD b j = b.entry ⟨j, hj10⟩ := entryD_lt b hj10
    rw [List.range'_succ j d 1]
    simp only [List.map_cons, spec_lookup, hD]
    by_cases hO : O < (b.entry ⟨j, hj10⟩).size
    · rw [findWalk_found b he hpres hO, if_pos hO]
    · push_neg at hO
      rw [findWalk_consume b he hpres hO]
      have hnext : nextIdx j = j + 1 := by
        have : ¬ end_entry j = true := by
          simp only [end_entry, maxWrite_eq, decide_eq_true_eq]
          omega
        simp [nextIdx, this]
      rw [hnext]
      have hout : b.out_offs = 0 := (hwf.2.2.2 hfull).1
      rw [if_neg (by omega)]
      rw [findWalk_nonfull b hwf hfull d (j + 1) (by omega) (O - _)]
      rw [if_neg (by omega)]

/-- On a full well-formed ring, the walk from the slot `(out_offs + k) % 10`
agrees with the spec's resolver over the remaining `d = 10 - k` logical
records. -/
lemma findWalk_full (b : aesd_circular_buffer) (hwf : wf b)
    (hfull : b.full = true) :
    ∀ d k, 1 ≤ d → k + d = 10 → ∀ O,
      findWalk b O ((b.out_offs + k) % 10) 0 =
        spec_lookup ((List.range' k d).map
          (fun t => ((b.out_offs + t) % 10,
                     (entryD b ((b.out_offs + t) % 10)).size))) O
  | 0, k, h1, hk, O => by omega
  | d + 1, k, _, hk, O => by
    have hout : b.out_offs < 10 := hwf.2.1
    have hk9 : k ≤ 9 := by omega
    have hidx10 : (b.out_offs + k) % 10 < 10 := Nat.mod_lt _ (by omega)
    have he := getEntry_lt b hidx10
    have hpres : entryPresent (b.entry ⟨(b.out_offs + k) % 10, hidx10⟩) = true :=
      (hwf.2.2.1 hfull).2 _
    have hD : entryD b ((b.out_offs + k) % 10) =
        b.entry ⟨(b.out_offs + k) % 10, hidx10⟩ := entryD_lt b hidx10
    rw [List.range'_succ k d 1]
    simp only [List.map_cons, spec_lookup, hD]
    by_cases hO : O < (b.entry ⟨(b.out_offs + k) % 10, hidx10⟩).size
    · rw [findWalk_found b he hpres hO, if_pos hO]
    · push_neg at hO
      rw [findWalk_consume b he hpres hO]
      have hnext : nextIdx ((b.out_offs + k) % 10) = (b.out_offs + (k + 1)) % 10 := by
        simp only [nextIdx, end_entry, maxWrite_eq, decide_eq_true_eq]
        by_cases h9 : (b.out_offs + k) % 10 = 10 - 1
        · rw [if_pos h9]; omega
        · rw [if_neg h9]; omega
      rw [hnext]
      by_cases hwrap : (b.out_offs + (k + 1)) % 10 = b.out_offs
      · rw [if_pos hwrap]
        have hd0 : d = 0 := by omega
        subst hd0
        simp [spec_lookup, if_neg (by omega : ¬ O < (b.entry ⟨(b.out_offs + k) % 10, hidx10⟩).size)]
      · rw [if_neg hwrap]
        have hd1 : 1 ≤ d := by omega
        rw [findWalk_full b hwf hfull d (k + 1) hd1 (by omega) (O - _)]
        rw [if_neg (by omega)]

/-- On a well-formed ring the code's resolver computes exactly what the
spec's words describe. -/
lemma find_eq_spec_lookup (b : aesd_circular_buffer) (hwf : wf b) (O : Nat) :
    aesd_circular_buffer_find_entry_offset_for_fpos b O =
      spec_lookup (logicalPairs b) O := by
  unfold aesd_circular_buffer_find_entry_offset_for_fpos logicalPairs logicalIdxs
  cases hfull : b.full with
  | false =>
    have hout : b.out_offs = 0 := (hwf.2.2.2 hfull).1
    have h := findWalk_nonfull b hwf hfull b.in_offs 0 (by omega) O
    rw [hout, h, if_neg (by simp), List.range_eq_range']
  | true =>
    have hout : b.out_offs < 10 := hwf.2.1
    have h := findWalk_full b hwf hfull 10 0 (by omega) (by omega) O
    rw [Nat.add_zero, Nat.mod_eq_of_lt hout] at h
    rw [h, if_pos rfl, maxWrite_eq, List.range_eq_range', List.map_map]
    rfl

/-- The spec's resolver returns NotFound exactly when the offset is at or
past the total number of stored bytes. -/
lemma spec_lookup_eq_none_iff :
    ∀ (L : List (Nat × Nat)) (O : Nat),
      spec_lookup L O = none ↔ (L.map Prod.snd).sum ≤ O
  | [], O => by simp [spec_lookup]
  | (i, s) :: rest, O => by
    simp only [spec_lookup, List.map_cons, List.sum_cons]
    by_cases h : O < s
    · rw [if_pos h]; simp; omega
    · rw [if_neg h, spec_lookup_eq_none_iff rest (O - s)]; omega

/-- The counter `totalBytes` is the sum of the sizes in `logicalPairs`. -/
lemma totalBytes_eq_pairs (b : aesd_circular_buffer) :
    ((logicalPairs b).map Prod.snd).sum = totalBytes b := by
  simp only [logicalPairs, totalBytes, List.map_map]
  rfl

/-- A present entry of `s` copies of byte `c`, used in concrete test states. -/
def sampleEntry (s c : Nat) : aesd_buffer_entry :=
  { buffptr := some (List.replicate s c), size := s }

/-- A non-full ring holding two records (sizes 2 and 3) in slots 0 and 1. -/
def sampleBuf2 : aesd_circular_buffer where
  entry := fun i =>
    if i.val = 0 then sampleEntry 2 97
    else if i.val = 1 then sampleEntry 3 98
    else { buffptr := none, size := 0 }
  in_offs := 2
  out_offs := 0
  full := false

/-- A full ring that has wrapped (`out_offs = 3`); slot 0 holds a 4-byte
record, every other slot a 1-byte record. -/
def sampleFull : aesd_circular_buffer where
  entry := fun i =>
    if i.val = 0 then sampleEntry 4 65 else sampleEntry 1 (65 + i.val)
  in_offs := 3
  out_offs := 3
  full := true

/-- C1: on every well-formed ring state and absolute offset `O`,
`aesd_circular_buffer_find_entry_offset_for_fpos` returns NULL iff
`O ≥ total_bytes`; otherwise it returns exactly what the spec's resolver
(`spec_lookup`, walking present records in logical order) returns: the
present record containing byte `O` together with `O` minus the sizes of the
preceding present records.  The embedding is a pure function of the buffer,
so the buffer is not modified. -/
theorem claim_C1_lookup_resolver (b : aesd_circular_buffer) (O : Nat)
    (hwf : wf b) :
    (aesd_circular_buffer_find_entry_offset_for_fpos b O = none ↔
      totalBytes b ≤ O) ∧
    aesd_circular_buffer_find_entry_offset_for_fpos b O =
      spec_lookup (logicalPairs b) O := by
  have h := find_eq_spec_lookup b hwf O
  refine ⟨?_, h⟩
  rw [h, spec_lookup_eq_none_iff, totalBytes_eq_pairs]

/-- C1 witness: the resolver theorem instantiated on the wrapped full ring
at offset 11 (inside slot 1's record, the 12th logical byte). -/
theorem claim_C1_lookup_resolver_witness :
    (aesd_circular_buffer_find_entry_offset_for_fpos sampleFull 11 = none ↔
      totalBytes sampleFull ≤ 11) ∧
    aesd_circular_buffer_find_entry_offset_for_fpos sampleFull 11 =
      spec_lookup (logicalPairs sampleFull) 11 :=
  claim_C1_lookup_resolver sampleFull 11 (by decide)

lemma setEntry_in_offs (b : aesd_circular_buffer) (i : Nat) (e : aesd_buffer_entry) :
    (setEntry b i e).in_offs = b.in_offs := by
  unfold setEntry; split <;> rfl

lemma setEntry_out_offs (b : aesd_circular_buffer) (i : Nat) (e : aesd_buffer_entry) :
    (setEntry b i e).out_offs = b.out_offs := by
  unfold setEntry; split <;> rfl

lemma setEntry_full (b : aesd_circular_buffer) (i : Nat) (e : aesd_buffer_entry) :
    (setEntry b i e).full = b.full := by
  unfold setEntry; split <;> rfl

lemma setEntry_entry (b : aesd_circular_buffer) {i : Nat} (e : aesd_buffer_entry)
    (h : i < AESDCHAR_MAX_WRITE_OPERATIONS_SUPPORTED) :
    (setEntry b i e).entry = Function.update b.entry ⟨i, h⟩ e := by
  unfold setEntry; rw [dif_pos h]

lemma nextIdx_lt {i : Nat} (_ : i < 10) : nextIdx i < 10 := by
  by_cases h9 : i = 9
  · simp [nextIdx, end_entry, h9, maxWrite_eq]
  · simp only [nextIdx, end_entry, maxWrite_eq]
    rw [if_neg (by simpa using h9)]
    omega

lemma nextIdx_of_ne {i : Nat} (h9 : i ≠ 9) : nextIdx i = i + 1 := by
  simp only [nextIdx, end_entry, maxWrite_eq]
  rw [if_neg (by simpa using h9)]

lemma nextIdx_nine : nextIdx 9 = 0 := by decide

/-- Adding a present entry preserves the structural invariant. -/
lemma wf_add_entry (b : aesd_circular_buffer) (e : aesd_buffer_entry)
    (hwf : wf b) (he : entryPresent e = true) :
    wf (aesd_circular_buffer_add_entry b e) := by
  obtain ⟨hin, hout, hfullc, hnfullc⟩ := hwf
  unfold aesd_circular_buffer_add_entry
  by_cases hf : b.full = true
  · obtain ⟨hoe, hpres⟩ := hfullc hf
    rw [if_pos hf]
    refine ⟨nextIdx_lt hin, nextIdx_lt hin, fun _ => ⟨rfl, fun i => ?_⟩, fun hc => ?_⟩
    · show entryPresent ((setEntry b b.in_offs e).entry i) = true
      rw [setEntry_entry b e hin]
      rcases eq_or_ne i ⟨b.in_offs, hin⟩ with rfl | hne
      · rw [Function.update_same]; exact he
      · rw [Function.update_noteq hne]; exact hpres i
    · have h2 : b.full = false := by
        rw [← setEntry_full b b.in_offs e]; exact hc
      rw [hf] at h2
      simp at h2
  · have hf' : b.full = false := by revert hf; cases b.full <;> simp
    obtain ⟨hoe, hiff⟩ := hnfullc hf'
    rw [if_neg hf]
    by_cases hw : nextIdx b.in_offs = b.out_offs
    · have hin9 : b.in_offs = 9 := by
        by_contra h9
        rw [nextIdx_of_ne h9] at hw
        omega
      rw [if_pos hw]
      refine ⟨nextIdx_lt hin, ?_, fun _ => ⟨?_, fun i => ?_⟩, fun hc => by simp at hc⟩
    -- out_offs unchanged
      · rw [setEntry_out_offs]; omega
      · rw [setEntry_out_offs, hoe, hin9, nextIdx_nine]
      · show entryPresent ((setEntry b b.in_offs e).entry i) = true
        rw [setEntry_entry b e hin]
        rcases eq_or_ne i ⟨b.in_offs, hin⟩ with rfl | hne
        · rw [Function.update_same]; exact he
        · rw [Function.update_noteq hne]
          refine (hiff i).mpr ?_
          have hvne : i.val ≠ b.in_offs := fun hv => hne (Fin.ext hv)
          have hI : i.val < 10 := i.isLt
          omega
    · have hin9 : b.in_offs ≠ 9 := by
        intro h9
        rw [h9, nextIdx_nine] at hw
        omega
      rw [if_neg hw]
      refine ⟨nextIdx_lt hin, ?_, fun hc => by simp at hc, fun _ => ⟨?_, fun i => ?_⟩⟩
      · rw [setEntry_out_offs]; omega
      · rw [setEntry_out_offs]; exact hoe
      · show entryPresent ((setEntry b b.in_offs e).entry i) = true ↔
          i.val < nextIdx b.in_offs
        rw [setEntry_entry b e hin, nextIdx_of_ne hin9]
        rcases eq_or_ne i ⟨b.in_offs, hin⟩ with rfl | hne
        · rw [Function.update_same]
          simp [he]
        · rw [Function.update_noteq hne]
          rw [hiff i]
          have hvne : i.val ≠ b.in_offs := fun hv => hne (Fin.ext hv)
          omega

/-- The state after a sequence of `aesd_circular_buffer_add_entry` calls
starting from the initialized empty ring. -/
def addSeq (es : List aesd_buffer_entry) : aesd_circular_buffer :=
  es.foldl aesd_circular_buffer_add_entry aesd_circular_buffer_init

lemma wf_init : wf aesd_circular_buffer_init := by decide

lemma wf_foldl_add :
    ∀ (es : List aesd_buffer_entry) (b : aesd_circular_buffer), wf b →
      (∀ x ∈ es, entryPresent x = true) →
      wf (es.foldl aesd_circular_buffer_add_entry b)
  | [], b, hwf, _ => hwf
  | e :: es, b, hwf, hes => by
    refine wf_foldl_add es _ (wf_add_entry b e hwf (hes e (by simp))) ?_
    intro x hx
    exact hes x (by simp [hx])

lemma wf_addSeq (es : List aesd_buffer_entry)
    (hes : ∀ x ∈ es, entryPresent x = true) : wf (addSeq es) :=
  wf_foldl_add es aesd_circular_buffer_init wf_init hes

/-- Adding to a full ring keeps it full. -/
lemma add_entry_full_stays (b : aesd_circular_buffer) (e : aesd_buffer_entry)
    (hf : b.full = true) : (aesd_circular_buffer_add_entry b e).full = true := by
  unfold aesd_circular_buffer_add_entry
  rw [if_pos hf]
  show (setEntry b b.in_offs e).full = true
  rw [setEntry_full]; exact hf

/-- On a full well-formed ring, the logical slot order is the slots from
`in_offs` to the end followed by the slots before `in_offs`. -/
lemma logicalIdxs_full_eq (b : aesd_circular_buffer) (hfull : b.full = true)
    (hin : b.in_offs < 10) (hoe : b.out_offs = b.in_offs) :
    logicalIdxs b =
      List.range' b.in_offs (10 - b.in_offs) ++ List.range b.in_offs := by
  unfold logicalIdxs
  rw [if_pos hfull, hoe, maxWrite_eq]
  apply List.ext_getElem
  · simp only [List.length_map, List.length_range, List.length_append,
      List.length_range']
    omega
  · intro k h1 h2
    have hk10 : k < 10 := by simpa using h1
    simp only [List.getElem_map, List.getElem_range]
    by_cases hk : k < 10 - b.in_offs
    · rw [List.getElem_append_left (by simpa using hk)]
      rw [List.getElem_range']
      omega
    · rw [List.getElem_append_right (by simpa using hk)]
      simp only [List.length_range', List.getElem_range]
      omega

/-- C9: starting from the initialized empty ring, every sequence of
`aesd_circular_buffer_add_entry` operations on nonempty records (the driver
only adds newline-terminated commands, which have size > 0) preserves the
structural invariants: `in_offs` stays in `[0, N)`; while the ring is not
full, `out_offs` stays 0 and the present records are exactly slots
`[0, in_offs)` in that order; once full, the present records are, in order,
slots `[in_offs, N)` followed by slots `[0, in_offs)`, and any further add
keeps the ring full. -/
theorem claim_C9_add_entry_invariants (es : List aesd_buffer_entry)
    (hes : ∀ x ∈ es, entryPresent x = true) :
    wf (addSeq es) ∧
    (addSeq es).in_offs < AESDCHAR_MAX_WRITE_OPERATIONS_SUPPORTED ∧
    ((addSeq es).full = false →
      (addSeq es).out_offs = 0 ∧
      logicalIdxs (addSeq es) = List.range (addSeq es).in_offs ∧
      ∀ i : Fin AESDCHAR_MAX_WRITE_OPERATIONS_SUPPORTED,
        entryPresent ((addSeq es).entry i) = true ↔
          i.val < (addSeq es).in_offs) ∧
    ((addSeq es).full = true →
      logicalIdxs (addSeq es) =
        List.range' (addSeq es).in_offs (10 - (addSeq es).in_offs) ++
          List.range (addSeq es).in_offs ∧
      (∀ i, entryPresent ((addSeq es).entry i) = true) ∧
      ∀ e, (aesd_circular_buffer_add_entry (addSeq es) e).full = true) := by
  have hwf := wf_addSeq es hes
  refine ⟨hwf, hwf.1, fun hnf => ?_, fun hf => ?_⟩
  · obtain ⟨ho, hiff⟩ := hwf.2.2.2 hnf
    refine ⟨ho, ?_, hiff⟩
    unfold logicalIdxs
    rw [if_neg (by simp [hnf])]
  · obtain ⟨hoe, hpres⟩ := hwf.2.2.1 hf
    exact ⟨logicalIdxs_full_eq _ hf hwf.1 hoe, hpres,
      fun e => add_entry_full_stays _ e hf⟩

/-- Eleven nonempty records for exercising wraparound. -/
def es11 : List aesd_buffer_entry :=
  (List.range 11).map (fun k => sampleEntry 2 (48 + k))

/-- C9 witness: the invariant theorem instantiated on a concrete sequence of
eleven adds (which wraps the ring). -/
theorem claim_C9_add_entry_invariants_witness :
    wf (addSeq es11) ∧
    (addSeq es11).in_offs < AESDCHAR_MAX_WRITE_OPERATIONS_SUPPORTED ∧
    ((addSeq es11).full = false →
      (addSeq es11).out_offs = 0 ∧
      logicalIdxs (addSeq es11) = List.range (addSeq es11).in_offs ∧
      ∀ i : Fin AESDCHAR_MAX_WRITE_OPERATIONS_SUPPORTED,
        entryPresent ((addSeq es11).entry i) = true ↔
          i.val < (addSeq es11).in_offs) ∧
    ((addSeq es11).full = true →
      logicalIdxs (addSeq es11) =
        List.range' (addSeq es11).in_offs (10 - (addSeq es11).in_offs) ++
          List.range (addSeq es11).in_offs ∧
      (∀ i, entryPresent ((addSeq es11).entry i) = true) ∧
      ∀ e, (aesd_circular_buffer_add_entry (addSeq es11) e).full = true) :=
  claim_C9_add_entry_invariants es11 (by decide)

lemma nextIdx_mod {i : Nat} (h : i < 10) : nextIdx i = (i + 1) % 10 := by
  by_cases h9 : i = 9
  · subst h9; decide
  · rw [nextIdx_of_ne h9]; omega

lemma entryD_add_full (b : aesd_circular_buffer) (e : aesd_buffer_entry)
    (hfull : b.full = true) (hin : b.in_offs < AESDCHAR_MAX_WRITE_OPERATIONS_SUPPORTED) :
    ∀ i, i < 10 →
      entryD (aesd_circular_buffer_add_entry b e) i =
        if i = b.in_offs then e else entryD b i := by
  intro i hi
  have hentry' : (aesd_circular_buffer_add_entry b e).entry =
      Function.update b.entry ⟨b.in_offs, hin⟩ e := by
    unfold aesd_circular_buffer_add_entry
    rw [if_pos hfull]
    exact setEntry_entry b e hin
  rw [entryD_lt _ hi, hentry']
  by_cases hieq : i = b.in_offs
  · have hx : (⟨i, hi⟩ : Fin AESDCHAR_MAX_WRITE_OPERATIONS_SUPPORTED) =
        ⟨b.in_offs, hin⟩ := Fin.ext hieq
    rw [if_pos hieq, hx, Function.update_same]
  · rw [if_neg hieq,
      Function.update_noteq (fun hc => hieq (congrArg Fin.val hc)),
      entryD_lt b hi]

/-- Adding to a full well-formed ring drops exactly the oldest logical
record and appends the new one at the end. -/
lemma presentRecords_add_full (b : aesd_circular_buffer) (e : aesd_buffer_entry)
    (hwf : wf b) (hfull : b.full = true) :
    presentRecords (aesd_circular_buffer_add_entry b e) =
      (presentRecords b).drop 1 ++ [e] := by
  obtain ⟨hin, hout, hfullc, _⟩ := hwf
  obtain ⟨hoe, hpres⟩ := hfullc hfull
  have hfull' := add_entry_full_stays b e hfull
  have hout' : (aesd_circular_buffer_add_entry b e).out_offs = nextIdx b.in_offs := by
    unfold aesd_circular_buffer_add_entry; rw [if_pos hfull]
  have hD := entryD_add_full b e hfull hin
  have hin10 : b.in_offs < 10 := hin
  unfold presentRecords logicalIdxs
  rw [if_pos hfull', if_pos hfull, hout', hoe, maxWrite_eq, List.map_map,
    List.map_map]
  conv_rhs => rw [show List.range 10 = 0 :: List.range' 1 9 by decide]
  simp only [List.map_cons, List.drop_succ_cons, List.drop_zero]
  apply List.ext_getElem
  · simp
  · intro k h1 h2
    have hk10 : k < 10 := by simpa using h1
    simp only [List.getElem_map, List.getElem_range, Function.comp_apply]
    by_cases hk9 : k < 9
    · rw [List.getElem_append_left (by simpa using hk9)]
      simp only [List.getElem_map, List.getElem_range', Function.comp_apply]
      have hidx : (nextIdx b.in_offs + k) % 10 = (b.in_offs + (1 + 1 * k)) % 10 := by
        rw [nextIdx_mod hin10]; omega
      rw [hidx, hD _ (Nat.mod_lt _ (by omega))]
      rw [if_neg (by omega)]
    · have hk9' : k = 9 := by omega
      subst hk9'
      rw [List.getElem_append_right (by simp)]
      have hidx : (nextIdx b.in_offs + 9) % 10 = b.in_offs := by
        rw [nextIdx_mod hin10]; omega
      rw [hidx, hD _ hin10, if_pos rfl]
      simp

/-- C5: on every full well-formed ring, adding one new record removes
exactly the oldest present record, preserves the logical order of the
remaining records, and leaves the ring holding the previous records (minus
the oldest) followed by the new one — i.e. the 10 most recent records. -/
theorem claim_C5_overwrite_oldest (b : aesd_circular_buffer)
    (e : aesd_buffer_entry) (hwf : wf b) (hfull : b.full = true) :
    presentRecords (aesd_circular_buffer_add_entry b e) =
      (presentRecords b).drop 1 ++ [e] ∧
    (aesd_circular_buffer_add_entry b e).full = true :=
  ⟨presentRecords_add_full b e hwf hfull, add_entry_full_stays b e hfull⟩

/-- C5 witness: after adding the 11th record to the ring filled with the
first ten of `es11`, the ring holds records 2 through 11 in arrival order
(the first record is gone); stated by applying the theorem at the concrete
state and checking the scenario outcome by evaluation. -/
theorem claim_C5_overwrite_oldest_witness :
    (presentRecords (aesd_circular_buffer_add_entry (addSeq (es11.take 10))
        (sampleEntry 2 58)) =
      (presentRecords (addSeq (es11.take 10))).drop 1 ++ [sampleEntry 2 58] ∧
      (aesd_circular_buffer_add_entry (addSeq (es11.take 10))
        (sampleEntry 2 58)).full = true) ∧
    presentRecords (addSeq es11) = es11.drop 1 :=
  ⟨claim_C5_overwrite_oldest (addSeq (es11.take 10)) (sampleEntry 2 58)
      (by decide) (by decide),
   by decide⟩

/-- The fields of `struct aesd_dev` used by the file operations in
`main.c`.  Modelled from the spec: the header `aesdchar.h` defining the
struct is not among the sources; its fields are reconstructed from their
uses in `main.c` (the circular buffer `aesd_cb`, the device byte counter
`buf_size`, and the temporary buffer `tmp_buf` of `tmp_size` bytes holding a
command not yet newline-terminated).  The cdev/mutex fields play no role in
the shallow embedding. -/
structure aesd_dev where
  aesd_cb : aesd_circular_buffer
  buf_size : Nat
  tmp_buf : Option (List Nat)
  tmp_size : Nat
  deriving DecidableEq

/-- The device state established by `aesd_init_module` (main.c:383):
zeroed circular buffer, `buf_size = 0`, no temporary buffer. -/
def aesd_dev_init : aesd_dev where
  aesd_cb := aesd_circular_buffer_init
  buf_size := 0
  tmp_buf := none
  tmp_size := 0

/-- The newline byte `\n`. -/
def newlineByte : Nat := 10

/-- The function `aesd_write` (main.c:115) on the success path (userspace copy succeeds,
`bytes_missing = 0`, allocation succeeds): append the written bytes to the
temporary buffer (or start a new one); if the accumulated `tmp_size` bytes
contain a newline (`memchr`), zero the size of the slot about to be
overwritten when the ring is full (the code also `kfree`s its data; memory
is not tracked), add the whole temporary buffer as one entry and reset it;
finally `buf_size += retval` in either case. -/
def aesd_write (dev : aesd_dev) (data : List Nat) : aesd_dev :=
  let tmp1 : List Nat :=
    if dev.tmp_size > 0 then dev.tmp_buf.getD [] ++ data else data
  let tmpSize1 : Nat :=
    if dev.tmp_size > 0 then dev.tmp_size + data.length else data.length
  if (tmp1.take tmpSize1).contains newlineByte then
    let cb1 :=
      if dev.aesd_cb.full then
        setEntry dev.aesd_cb dev.aesd_cb.in_offs
          { entryD dev.aesd_cb dev.aesd_cb.in_offs with size := 0 }
      else dev.aesd_cb
    { dev with
      aesd_cb := aesd_circular_buffer_add_entry cb1
        { buffptr := some tmp1, size := tmpSize1 },
      tmp_buf := none,
      tmp_size := 0,
      buf_size := dev.buf_size + data.length }
  else
    { dev with
      tmp_buf := some tmp1,
      tmp_size := tmpSize1,
      buf_size := dev.buf_size + data.length }

/-- Consistency of the temporary buffer fields (holds in every reachable
device state): `tmp_size` is the length of the held bytes, and a zero size
means no buffer is held. -/
def tmpConsistent (dev : aesd_dev) : Prop :=
  dev.tmp_size = (dev.tmp_buf.getD []).length ∧
  (dev.tmp_size = 0 → dev.tmp_buf = none)

instance (dev : aesd_dev) : Decidable (tmpConsistent dev) := by
  unfold tmpConsistent; infer_instance

lemma write_buf_size (dev : aesd_dev) (data : List Nat) :
    (aesd_write dev data).buf_size = dev.buf_size + data.length := by
  simp only [aesd_write]
  split <;> split <;> rfl

/-- C2 as stated fails: `buf_size` counts every accepted byte, including
bytes still in the temporary buffer.  After writing one byte (no newline)
to a fresh device, `buf_size = 1` but no record is present. -/
theorem claim_C2_counterexample :
    (aesd_write aesd_dev_init [97]).buf_size = 1 ∧
    totalBytes (aesd_write aesd_dev_init [97]).aesd_cb = 0 ∧
    (aesd_write aesd_dev_init [97]).buf_size ≠
      totalBytes (aesd_write aesd_dev_init [97]).aesd_cb := by
  decide

/-- C2 amended: after any sequence of writes from the initial device state,
`buf_size` equals the cumulative number of bytes accepted across all writes
— partial-buffer bytes included, and nothing is subtracted when a full ring
overwrites its oldest record. -/
theorem claim_C2_buf_size_cumulative (writes : List (List Nat)) :
    (writes.foldl aesd_write aesd_dev_init).buf_size =
      (writes.map List.length).sum := by
  suffices h : ∀ (ws : List (List Nat)) (dev : aesd_dev),
      (ws.foldl aesd_write dev).buf_size =
        dev.buf_size + (ws.map List.length).sum by
    simpa [aesd_dev_init] using h writes aesd_dev_init
  intro ws
  induction ws with
  | nil => intro dev; simp
  | cons w ws ih =>
    intro dev
    simp only [List.foldl_cons, List.map_cons, List.sum_cons, ih,
      write_buf_size]
    omega

/-- C7 names behavior the code does not implement: on a write whose bytes
hold an interior newline followed by more bytes, `aesd_write` promotes the
*entire* accumulated buffer (trailing bytes included) as one record and
empties the temporary buffer — nothing is retained for the next write.
Evaluated at the write `"a\nc"` on a fresh device. -/
theorem claim_C7_code_promotes_whole_buffer :
    presentRecords (aesd_write aesd_dev_init [97, 10, 99]).aesd_cb =
      [{ buffptr := some [97, 10, 99], size := 3 }] ∧
    (aesd_write aesd_dev_init [97, 10, 99]).tmp_buf = none ∧
    (aesd_write aesd_dev_init [97, 10, 99]).tmp_size = 0 := by
  decide

/-- C8: a write containing no newline leaves the ring of complete records
unchanged and grows the temporary (partial) buffer by exactly the written
bytes, appended verbatim; stated under the reachable-state consistency of
the temporary buffer fields. -/
theorem claim_C8_no_newline_grows_tmp (dev : aesd_dev) (data : List Nat)
    (hcons : tmpConsistent dev)
    (htmp : (dev.tmp_buf.getD []).contains newlineByte = false)
    (hdata : data.contains newlineByte = false) :
    (aesd_write dev data).aesd_cb = dev.aesd_cb ∧
    (aesd_write dev data).tmp_buf = some (dev.tmp_buf.getD [] ++ data) ∧
    (aesd_write dev data).tmp_size = dev.tmp_size + data.length := by
  obtain ⟨hlen, hzero⟩ := hcons
  have hcat : (dev.tmp_buf.getD [] ++ data).contains newlineByte = false := by
    simp only [List.contains_eq_any_beq] at htmp hdata ⊢
    simp only [List.any_append, htmp, hdata, Bool.or_self]
  by_cases h0 : dev.tmp_size > 0
  · have htake : dev.tmp_size + data.length =
        (dev.tmp_buf.getD [] ++ data).length := by
      simp [hlen]
    simp only [aesd_write, if_pos h0, htake, List.take_length, hcat]
    simp
  · have hnone : dev.tmp_buf = none := hzero (by omega)
    have hgetD : dev.tmp_buf.getD [] = [] := by rw [hnone]; rfl
    have htake : data.take data.length = data := List.take_length data
    have hcat' : data.contains newlineByte = false := hdata
    simp only [aesd_write, if_neg h0, htake, hcat']
    simp [hgetD]
    omega

/-- The device state after one 1-byte no-newline write on a fresh device:
temporary buffer `[97]`. -/
def devPartial : aesd_dev := aesd_write aesd_dev_init [97]

/-- C8 witness: the frame theorem applied to the concrete device holding
the unterminated byte `[97]`, written the two bytes `[98, 99]`. -/
theorem claim_C8_no_newline_grows_tmp_witness :
    (aesd_write devPartial [98, 99]).aesd_cb = devPartial.aesd_cb ∧
    (aesd_write devPartial [98, 99]).tmp_buf =
      some (devPartial.tmp_buf.getD [] ++ [98, 99]) ∧
    (aesd_write devPartial [98, 99]).tmp_size =
      devPartial.tmp_size + [98, 99].length :=
  claim_C8_no_newline_grows_tmp devPartial [98, 99] (by decide) (by decide)
    (by decide)

/-- Result of the `AESDCHAR_IOCSEEKTO` branch of `aesd_ioctl`: the returned
value together with the value assigned to `filp->f_pos` when the code
assigns one; `oob i` marks a read of `entry[i]` with `i` outside the entry
array (undefined behaviour in C). -/
inductive IoctlResult where
  | res (retval : Int) (fpos : Option Nat)
  | oob (idx : Nat)
  deriving DecidableEq, Repr

/-- The entries in raw slot order `entry[0] … entry[9]`. -/
def entriesList (b : aesd_circular_buffer) : List aesd_buffer_entry :=
  (List.range AESDCHAR_MAX_WRITE_OPERATIONS_SUPPORTED).map (entryD b)

/-- The summing loop of `aesd_ioctl` (main.c:312-322) over
`entry[0] … entry[write_cmd-1]` in raw slot order: adds the sizes of present
entries to `loc_off`; at the first non-present entry it sets `-EINVAL` and
breaks (second component `false`). -/
def seekSum : List aesd_buffer_entry → Nat → Nat × Bool
  | [], loc_off => (loc_off, true)
  | e :: rest, loc_off =>
    if entryPresent e then seekSum rest (loc_off + e.size) else (loc_off, false)

/-- The function `aesd_ioctl`, case `AESDCHAR_IOCSEEKTO` (main.c:283-343), on the success
path of `copy_from_user`: validate `write_cmd` (`write_cmd < 0` is
impossible for `uint32_t`; the code rejects only `write_cmd >
AESDCHAR_MAX_WRITE_OPERATIONS_SUPPORTED`), run the summing loop, then read
`entry[write_cmd]` — an out-of-bounds access when `write_cmd = 10` — and
either reject (`write_cmd_offset > entry->size`, entry not present) or
assign `filp->f_pos = loc_off + write_cmd_offset`.  The returned value is
the `retval` accumulated by the code (`-EINVAL` if the loop broke). -/
def aesd_ioctl_seekto (b : aesd_circular_buffer)
    (write_cmd write_cmd_offset : Nat) : IoctlResult :=
  if write_cmd > AESDCHAR_MAX_WRITE_OPERATIONS_SUPPORTED then
    .res (-22) none
  else
    match seekSum ((entriesList b).take write_cmd) 0 with
    | (loc_off, loop_ok) =>
      match getEntry b write_cmd with
      | none => .oob write_cmd
      | some entry =>
        if entryPresent entry then
          if write_cmd_offset > entry.size then .res (-22) none
          else .res (if loop_ok then 0 else -22)
                 (some (loc_off + write_cmd_offset))
        else .res (-22) none

/-- C6 as stated fails at `write_cmd = 10`: the guard rejects only
`write_cmd > 10`, so `write_cmd = 10` passes validation, the loop runs, and
`entry[10]` — one past the end of the array — is read.  Strictly larger
values are rejected before any slot access, as the claim says. -/
theorem claim_C6_seek_bounds_check :
    aesd_ioctl_seekto sampleFull 10 0 = .oob 10 ∧
    aesd_ioctl_seekto sampleBuf2 10 0 = .oob 10 ∧
    aesd_ioctl_seekto sampleFull 11 0 = .res (-22) none ∧
    aesd_ioctl_seekto sampleBuf2 11 3 = .res (-22) none := by
  decide

/-- Sum of the sizes of the entries at raw slots `[0, cmd)` — what the
`aesd_ioctl` loop computes when all of them are present. -/
def sumBefore (b : aesd_circular_buffer) (cmd : Nat) : Nat :=
  (((entriesList b).take cmd).map (fun e => e.size)).sum

/-- Modelled from the spec's words, for comparison with the code: the spec
translates `(write_cmd, write_cmd_offset)` to an absolute offset "by summing
the sizes of the present records preceding write_cmd in logical order and
adding write_cmd_offset", with `write_cmd` the logical index. -/
def spec_seek_offset (b : aesd_circular_buffer)
    (write_cmd write_cmd_offset : Nat) : Nat :=
  (((logicalPairs b).take write_cmd).map Prod.snd).sum + write_cmd_offset

lemma entriesList_take (b : aesd_circular_buffer) {cmd : Nat} (h : cmd ≤ 10) :
    (entriesList b).take cmd = (List.range cmd).map (entryD b) := by
  unfold entriesList
  rw [maxWrite_eq, ← List.map_take, List.take_range, Nat.min_eq_left h]

lemma seekSum_of_present :
    ∀ (l : List aesd_buffer_entry) (acc : Nat),
      (∀ e ∈ l, entryPresent e = true) →
      seekSum l acc = (acc + (l.map (fun e => e.size)).sum, true)
  | [], acc, _ => by simp [seekSum]
  | e :: rest, acc, h => by
    rw [seekSum, if_pos (h e (by simp))]
    rw [seekSum_of_present rest (acc + e.size) (fun x hx => h x (by simp [hx]))]
    simp [List.map_cons, List.sum_cons, Nat.add_assoc]

/-- Under well-formedness, every raw slot before a present slot is present
(the present slots form a contiguous range from slot 0 when not full, and
everything is present when full). -/
lemma present_of_lt (b : aesd_circular_buffer) (hwf : wf b) {cmd : Nat}
    (hcmd : cmd < 10) (hpres : entryPresent (entryD b cmd) = true) :
    ∀ i, i < cmd → entryPresent (entryD b i) = true := by
  intro i hi
  have hi10 : i < 10 := by omega
  rw [entryD_lt b hi10]
  obtain ⟨hin, hout, hfullc, hnfullc⟩ := hwf
  cases hfull : b.full with
  | true => exact (hfullc hfull).2 _
  | false =>
    obtain ⟨_, hiff⟩ := hnfullc hfull
    rw [entryD_lt b hcmd] at hpres
    have hcmdlt : cmd < b.in_offs := (hiff ⟨cmd, hcmd⟩).mp hpres
    exact (hiff ⟨i, hi10⟩).mpr (show i < b.in_offs by omega)

/-- The `AESDCHAR_IOCSEEKTO` success path: when `write_cmd` names a present
slot on a well-formed ring, the code computes the raw-slot-order sum of the
preceding sizes and accepts any `write_cmd_offset ≤ entry->size`. -/
lemma ioctl_seekto_present (b : aesd_circular_buffer) (hwf : wf b)
    (cmd off : Nat) (hcmd : cmd < 10)
    (hpres : entryPresent (entryD b cmd) = true) :
    aesd_ioctl_seekto b cmd off =
      if (entryD b cmd).size < off then .res (-22) none
      else .res 0 (some (sumBefore b cmd + off)) := by
  have hall : ∀ e ∈ (entriesList b).take cmd, entryPresent e = true := by
    rw [entriesList_take b (show cmd ≤ 10 by omega)]
    intro e he
    obtain ⟨i, hi, rfl⟩ := List.mem_map.mp he
    exact present_of_lt b hwf hcmd hpres i (List.mem_range.mp hi)
  have hsum := seekSum_of_present ((entriesList b).take cmd) 0 hall
  unfold aesd_ioctl_seekto
  rw [if_neg (show ¬ cmd > AESDCHAR_MAX_WRITE_OPERATIONS_SUPPORTED by
    rw [maxWrite_eq]; omega)]
  rw [entryD_lt b hcmd] at hpres
  by_cases hoff : (b.entry ⟨cmd, hcmd⟩).size < off
  · simp only [hsum, getEntry_lt b hcmd, hpres, if_true, entryD_lt b hcmd,
      if_pos hoff, if_pos (show off > (b.entry ⟨cmd, hcmd⟩).size from hoff)]
  · simp only [hsum, getEntry_lt b hcmd, hpres, if_true, entryD_lt b hcmd,
      if_neg hoff, if_neg (show ¬ off > (b.entry ⟨cmd, hcmd⟩).size from hoff)]
    simp [sumBefore]

/-- C3 as stated fails: a `write_cmd_offset` *equal* to the record's length
is accepted (the code rejects only offsets strictly greater than the size).
On the device holding the single record `"a\n"` (size 2), seeking to
`(0, 2)` returns success and sets `f_pos = 2`. -/
theorem claim_C3_counterexample :
    aesd_ioctl_seekto (aesd_write aesd_dev_init [97, 10]).aesd_cb 0 2 =
      .res 0 (some 2) := by
  decide

/-- C3 amended: for a present record addressed by `write_cmd` on a
well-formed ring, the seek returns `-EINVAL` exactly for
`write_cmd_offset > size` — offsets up to and *including* the record's
length succeed (the boundary offset positions `f_pos` one past the record's
last byte). -/
theorem claim_C3_offset_validation (b : aesd_circular_buffer)
    (cmd off : Nat) (hwf : wf b) (hcmd : cmd < 10)
    (hpres : entryPresent (entryD b cmd) = true) :
    (off ≤ (entryD b cmd).size →
      aesd_ioctl_seekto b cmd off = .res 0 (some (sumBefore b cmd + off))) ∧
    ((entryD b cmd).size < off →
      aesd_ioctl_seekto b cmd off = .res (-22) none) := by
  have h := ioctl_seekto_present b hwf cmd off hcmd hpres
  constructor
  · intro hle
    rw [h, if_neg (by omega)]
  · intro hlt
    rw [h, if_pos hlt]

/-- C3 witness: on the two-record ring, slot 1 has size 3; offset 3 (equal
to the size) succeeds and offset 4 is rejected. -/
theorem claim_C3_offset_validation_witness :
    aesd_ioctl_seekto sampleBuf2 1 3 =
      .res 0 (some (sumBefore sampleBuf2 1 + 3)) ∧
    aesd_ioctl_seekto sampleBuf2 1 4 = .res (-22) none :=
  ⟨(claim_C3_offset_validation sampleBuf2 1 3 (by decide) (by decide)
      (by decide)).1 (by decide),
   (claim_C3_offset_validation sampleBuf2 1 4 (by decide) (by decide)
      (by decide)).2 (by decide)⟩

/-- C4 as stated fails on a wrapped ring: the code sums raw slots
`[0, write_cmd)`, not the present records preceding `write_cmd` in logical
order.  On the wrapped full ring (`out_offs = 3`, slot 0 of size 4, all
other slots of size 1), seeking to `(1, 0)` sets `f_pos = 4` (the size of
raw slot 0), while the spec's logical-order formula gives 1 (the size of
the logically first record, slot 3). -/
theorem claim_C4_counterexample :
    aesd_ioctl_seekto sampleFull 1 0 = .res 0 (some 4) ∧
    spec_seek_offset sampleFull 1 0 = 1 ∧
    aesd_ioctl_seekto sampleFull 1 0 ≠
      .res 0 (some (spec_seek_offset sampleFull 1 0)) := by
  decide

/-- C4 amended: a valid seek sets `f_pos` to the sum of the sizes of the
entries at *raw* slots `[0, write_cmd)` plus the offset; `write_cmd` is a
raw slot index.  This coincides with the spec's logical-order rule exactly
when the ring has not wrapped (`full = false`, where `out_offs = 0` and raw
order is logical order). -/
theorem claim_C4_seek_raw_slot_order (b : aesd_circular_buffer)
    (cmd off : Nat) (hwf : wf b) (hcmd : cmd < 10)
    (hpres : entryPresent (entryD b cmd) = true)
    (hoff : off ≤ (entryD b cmd).size) :
    aesd_ioctl_seekto b cmd off = .res 0 (some (sumBefore b cmd + off)) ∧
    (b.full = false → sumBefore b cmd + off = spec_seek_offset b cmd off) := by
  constructor
  · rw [ioctl_seekto_present b hwf cmd off hcmd hpres, if_neg (by omega)]
  · intro hnf
    have hcmdlt : cmd < b.in_offs := by
      obtain ⟨hin, hout, hfullc, hnfullc⟩ := hwf
      obtain ⟨_, hiff⟩ := hnfullc hnf
      rw [entryD_lt b hcmd] at hpres
      exact (hiff ⟨cmd, hcmd⟩).mp hpres
    unfold spec_seek_offset logicalPairs logicalIdxs sumBefore
    rw [if_neg (by simp [hnf]), entriesList_take b (show cmd ≤ 10 by omega)]
    rw [← List.map_take, List.take_range,
      Nat.min_eq_left (le_of_lt hcmdlt), List.map_map, List.map_map]
    rfl

/-- C4 witness: on the non-wrapped two-record ring, seeking to `(1, 2)`
gives `f_pos` = size of slot 0 plus 2 = 4, which agrees with the spec's
logical-order formula. -/
theorem claim_C4_seek_raw_slot_order_witness :
    aesd_ioctl_seekto sampleBuf2 1 2 =
      .res 0 (some (sumBefore sampleBuf2 1 + 2)) ∧
    sumBefore sampleBuf2 1 + 2 = spec_seek_offset sampleBuf2 1 2 :=
  ⟨(claim_C4_seek_raw_slot_order sampleBuf2 1 2 (by decide) (by decide)
      (by decide) (by decide)).1,
   (claim_C4_seek_raw_slot_order sampleBuf2 1 2 (by decide) (by decide)
      (by decide) (by decide)).2 rfl⟩

/-- The stored `size` of every entry matches the length of its data (true
of every record the driver stores, which sets `size` to the byte count of
the allocated buffer). -/
def sizesAccurate (b : aesd_circular_buffer) : Prop :=
  ∀ i : Fin AESDCHAR_MAX_WRITE_OPERATIONS_SUPPORTED,
    (b.entry i).size = ((b.entry i).buffptr.getD []).length

instance (b : aesd_circular_buffer) : Decidable (sizesAccurate b) := by
  unfold sizesAccurate; infer_instance

/-- The function `aesd_read` (main.c:59) on the success path (`buf` non-NULL,
`copy_to_user` succeeds): resolve `*f_pos`; on NULL return 0 bytes with
`f_pos` unchanged; otherwise return
`read_length = min(entry->size - start_entry_off, count)` bytes of the found
entry starting at `start_entry_off`, and advance `*f_pos` by `read_length`.
Result: (bytes copied to the user, new `*f_pos`). -/
def aesd_read (b : aesd_circular_buffer) (count f_pos : Nat) :
    List Nat × Nat :=
  match aesd_circular_buffer_find_entry_offset_for_fpos b f_pos with
  | none => ([], f_pos)
  | some (idx, start_entry_off) =>
    let e := entryD b idx
    let read_length := min (e.size - start_entry_off) count
    (((e.buffptr.getD []).drop start_entry_off).take read_length,
     f_pos + read_length)

/-- A successful spec-side lookup over index/size pairs lands strictly
inside a listed record. -/
lemma spec_lookup_map_lt (f : Nat → Nat) :
    ∀ (idxs : List Nat) (O i w),
      spec_lookup (idxs.map (fun j => (j, f j))) O = some (i, w) →
      i ∈ idxs ∧ w < f i
  | [], O, i, w => by simp [spec_lookup]
  | j :: idxs, O, i, w => by
    simp only [List.map_cons, spec_lookup]
    by_cases h : O < f j
    · rw [if_pos h]
      intro he
      have hp := Option.some.inj he
      have hji : j = i := congrArg Prod.fst hp
      have hOw : O = w := congrArg Prod.snd hp
      subst hji; subst hOw
      exact ⟨by simp, h⟩
    · rw [if_neg h]
      intro he
      obtain ⟨hmem, hlt⟩ := spec_lookup_map_lt f idxs (O - f j) i w he
      exact ⟨by simp [hmem], hlt⟩

lemma logicalIdxs_lt (b : aesd_circular_buffer) (hwf : wf b) :
    ∀ i ∈ logicalIdxs b, i < 10 := by
  intro i hi
  unfold logicalIdxs at hi
  by_cases hf : b.full = true
  · rw [if_pos hf] at hi
    obtain ⟨k, _, rfl⟩ := List.mem_map.mp hi
    exact Nat.mod_lt _ (by decide)
  · rw [if_neg hf] at hi
    have h1 := List.mem_range.mp hi
    have hin : b.in_offs < 10 := hwf.1
    omega

/-- C10: a single `aesd_read` returns bytes from at most one record.  When
`f_pos` is at or past the end of the stored data it returns 0 bytes and
leaves `f_pos` unchanged; otherwise, with `(idx, w)` the record containing
`f_pos` and `L` its length, it returns exactly `min(count, L - w)` bytes,
taken from byte `w` of that one record, and advances `f_pos` by exactly the
number of bytes returned. -/
theorem claim_C10_read_single_record (b : aesd_circular_buffer)
    (count f_pos : Nat) (hwf : wf b) (hacc : sizesAccurate b) :
    (totalBytes b ≤ f_pos → aesd_read b count f_pos = ([], f_pos)) ∧
    (f_pos < totalBytes b →
      ∃ idx w,
        spec_lookup (logicalPairs b) f_pos = some (idx, w) ∧
        w < (entryD b idx).size ∧
        aesd_read b count f_pos =
          ((((entryD b idx).buffptr.getD []).drop w).take
              (min ((entryD b idx).size - w) count),
           f_pos + min ((entryD b idx).size - w) count) ∧
        ((((entryD b idx).buffptr.getD []).drop w).take
            (min ((entryD b idx).size - w) count)).length =
          min ((entryD b idx).size - w) count) := by
  constructor
  · intro hge
    have hn : aesd_circular_buffer_find_entry_offset_for_fpos b f_pos = none := by
      rw [find_eq_spec_lookup b hwf, spec_lookup_eq_none_iff, totalBytes_eq_pairs]
      exact hge
    unfold aesd_read
    rw [hn]
  · intro hlt
    rcases h : aesd_circular_buffer_find_entry_offset_for_fpos b f_pos with _ | ⟨idx, w⟩
    · exfalso
      have : totalBytes b ≤ f_pos := by
        rw [← totalBytes_eq_pairs, ← spec_lookup_eq_none_iff,
          ← find_eq_spec_lookup b hwf]
        exact h
      omega
    · have hspec : spec_lookup (logicalPairs b) f_pos = some (idx, w) := by
        rw [← find_eq_spec_lookup b hwf, h]
      have hml := spec_lookup_map_lt (fun i => (entryD b i).size)
        (logicalIdxs b) f_pos idx w hspec
      obtain ⟨hmem, hwlt⟩ := hml
      have hidx10 : idx < 10 := logicalIdxs_lt b hwf idx hmem
      refine ⟨idx, w, hspec, hwlt, ?_, ?_⟩
      · unfold aesd_read
        rw [h]
      · have hlen : ((entryD b idx).buffptr.getD []).length =
            (entryD b idx).size := by
          rw [entryD_lt b hidx10]
          exact (hacc ⟨idx, hidx10⟩).symm
        rw [List.length_take, List.length_drop, hlen]
        exact Nat.min_eq_left (by omega)

/-- C10 witness: the read theorem instantiated on the wrapped full ring —
past-the-end read at `f_pos = 20` and an in-record read at `f_pos = 9`
(inside slot 0's 4-byte record) with `count = 5`. -/
theorem claim_C10_read_single_record_witness :
    aesd_read sampleFull 5 20 = ([], 20) ∧
    (∃ idx w,
      spec_lookup (logicalPairs sampleFull) 9 = some (idx, w) ∧
      w < (entryD sampleFull idx).size ∧
      aesd_read sampleFull 5 9 =
        ((((entryD sampleFull idx).buffptr.getD []).drop w).take
            (min ((entryD sampleFull idx).size - w) 5),
         9 + min ((entryD sampleFull idx).size - w) 5) ∧
      ((((entryD sampleFull idx).buffptr.getD []).drop w).take
          (min ((entryD sampleFull idx).size - w) 5)).length =
        min ((entryD sampleFull idx).size - w) 5) :=
  ⟨(claim_C10_read_single_record sampleFull 5 20 (by decide) (by decide)).1
      (by decide),
   (claim_C10_read_single_record sampleFull 5 9 (by decide) (by decide)).2
      (by decide)⟩

end Aesd
